import Mathlib

/-!
Verification development for the hierarchical content-policy (lint) engine
of the `_profanity` tool in `ChannyClaus/go-sdk`.

The Go source (`src/unnamed/part_001`) is shallowly embedded here:
pure functions become Lean functions, the two mutable maps
(`packageRules`, `realizedRules`) become explicitly threaded association
lists, and fallible operations return `Except`.  Byte strings are
modelled as Lean `String`/`List Char` at rune granularity.
-/

namespace Profanity

/-! ### String helpers modelling the Go standard library -/

/-- Prefix test on character lists: `subAt sub s` is true when `sub` is an
initial segment of `s` (helper for the substring search of
`strings.Contains`). -/
def subAt : List Char → List Char → Bool
  | [], _ => true
  | _ :: _, [] => false
  | a :: as, b :: bs => a = b && subAt as bs

/-- Substring search on character lists: `hasSub sub s` is true when `sub`
occurs contiguously somewhere in `s`. -/
def hasSub (sub : List Char) : List Char → Bool
  | [] => sub.isEmpty
  | c :: cs => subAt sub (c :: cs) || hasSub sub cs

/-- Model of Go `strings.Contains(s, sub)`. -/
def goContains (s sub : String) : Bool :=
  hasSub sub.data s.data

/-- Model of Go `strings.HasPrefix(s, p)`: `s` begins with `p`. -/
def goHasPrefix (s p : String) : Bool :=
  subAt p.data s.data

/-- Model of Go `unicode.IsSpace` (the White_Space property). -/
def goIsSpace (c : Char) : Bool :=
  let n := c.toNat
  (0x9 ≤ n && n ≤ 0xd) || n = 0x20 || n = 0x85 || n = 0xa0 || n = 0x1680 ||
  (0x2000 ≤ n && n ≤ 0x200a) || n = 0x2028 || n = 0x2029 || n = 0x202f ||
  n = 0x205f || n = 0x3000

/-- Model of Go `strings.TrimSpace`. -/
def goTrimSpace (s : String) : String :=
  String.mk (((s.data.dropWhile goIsSpace).reverse.dropWhile goIsSpace).reverse)

/-- Model of Go `path/filepath.Base` on unix (separator `/`):
empty path gives `"."`; otherwise trailing separators are stripped, then
everything up to and including the last separator is removed; if nothing
remains the result is `"/"`. -/
def goBase (path : String) : String :=
  if path.isEmpty then "."
  else
    let p := (path.data.reverse.dropWhile (fun c => c = '/')).reverse
    let b := (p.reverse.takeWhile (fun c => c ≠ '/')).reverse
    if b.isEmpty then "/" else String.mk b

/-! ### Go `path/filepath.Match` (unix build)

Faithful translation of the Go standard library glob matcher called by
`globAnyMatch`.  `Except Unit` models the `ErrBadPattern` error.  The
scan loops of `Match`, `matchChunk` and the range parser consume their
pattern strictly, so they are written with an explicit fuel argument
that the wrappers instantiate with the pattern length plus one, which is
always sufficient. -/

/-- Leading-`*` stripping from the head of `scanChunk`. -/
def dropStars : List Char → List Char
  | '*' :: cs => dropStars cs
  | p => p

/-- The `Scan` loop body of Go `scanChunk`: split the pattern at the first
unescaped `*` that is not inside a `[...]` range, returning
(chunk, rest). A `\` escapes (skips) the following character. -/
def scanChunkBody : List Char → Bool → List Char × List Char
  | [], _ => ([], [])
  | c :: cs, inrange =>
    if c = '*' && !inrange then ([], c :: cs)
    else if c = '\\' then
      match cs with
      | [] => ([c], [])
      | d :: ds =>
        let (ch, rest) := scanChunkBody ds inrange
        (c :: d :: ch, rest)
    else
      let (ch, rest) := scanChunkBody cs
        (if c = '[' then true else if c = ']' then false else inrange)
      (c :: ch, rest)

/-- Model of Go `scanChunk`: strip leading `*`s (recording whether there
was at least one), then split off the first chunk. -/
def scanChunk (pattern : List Char) : Bool × List Char × List Char :=
  let star := pattern.head? == some '*'
  let p := dropStars pattern
  let (chunk, rest) := scanChunkBody p false
  (star, chunk, rest)

/-- Model of Go `getEsc`: read one (possibly escaped) character of a
`[...]` range.  Errors on empty input, a leading `-` or `]`, a trailing
`\`, or when nothing follows the character read. -/
def getEsc : List Char → Except Unit (Char × List Char)
  | [] => .error ()
  | c :: cs =>
    if c = '-' || c = ']' then .error ()
    else if c = '\\' then
      match cs with
      | [] => .error ()
      | r :: rest => if rest.isEmpty then .error () else .ok (r, rest)
    else
      if cs.isEmpty then .error () else .ok (c, cs)

/-- The range-parsing loop of Go `matchChunk`'s `[` case: consume
`lo`(-`hi`) ranges until a closing `]` (which must close at least one
range), accumulating whether the rune `r` fell into any range. -/
def parseRangesF : Nat → List Char → Char → Nat → Bool → Except Unit (Bool × List Char)
  | 0, _, _, _, _ => .error ()
  | fuel + 1, chunk, r, nrange, acc =>
    if chunk.head? == some ']' && nrange > 0 then .ok (acc, chunk.tail)
    else
      match getEsc chunk with
      | .error _ => .error ()
      | .ok (lo, c1) =>
        match (if c1.head? == some '-' then getEsc c1.tail else .ok (lo, c1)) with
        | .error _ => .error ()
        | .ok (hi, c2) =>
          parseRangesF fuel c2 r (nrange + 1) (acc || (decide (lo ≤ r) && decide (r ≤ hi)))

/-- Model of Go `matchChunk` (Go 1.x unix build): match a chunk (no `*`s)
against the head of `s`; `.ok (some t)` returns the unmatched remainder,
`.ok none` is a failed match, `.error` is `ErrBadPattern`. -/
def matchChunkF : Nat → List Char → List Char → Except Unit (Option (List Char))
  | 0, _, _ => .error ()
  | fuel + 1, chunk, s =>
    match chunk, s with
    | [], s => .ok (some s)
    | _ :: _, [] => .ok none
    | '[' :: cr, sc :: st =>
      if cr.isEmpty then .error ()
      else
        let negated := cr.head? == some '^'
        let cr2 := if negated then cr.tail else cr
        match parseRangesF (cr2.length + 1) cr2 sc 0 false with
        | .error _ => .error ()
        | .ok (m, cr3) =>
          if m == negated then .ok none else matchChunkF fuel cr3 st
    | '?' :: cr, sc :: st =>
      if sc = '/' then .ok none else matchChunkF fuel cr st
    | '\\' :: cr, sc :: st =>
      match cr with
      | [] => .error ()
      | e :: cr2 => if e = sc then matchChunkF fuel cr2 st else .ok none
    | c :: cr, sc :: st =>
      if c = sc then matchChunkF fuel cr st else .ok none

/-- `matchChunk` with its always-sufficient fuel (every iteration consumes
at least one pattern character). -/
def matchChunk (chunk s : List Char) : Except Unit (Option (List Char)) :=
  matchChunkF (chunk.length + 1) chunk s

/-- The star-backtracking inner loop of Go `Match`: try `matchChunk` at
every later position of `name` that does not cross a `/`.  `.ok (some t)`
means resume the outer loop with remainder `t`; `.ok none` means the
whole match fails.  `lastChunk` records whether the remaining pattern is
empty (Go's `len(pattern) == 0` test). -/
def starLoop (lastChunk : Bool) (chunk : List Char) : List Char → Except Unit (Option (List Char))
  | [] => .ok none
  | c :: cs =>
    if c = '/' then .ok none
    else
      match matchChunk chunk cs with
      | .ok (some t) =>
        if lastChunk && !t.isEmpty then starLoop lastChunk chunk cs
        else .ok (some t)
      | .ok none => starLoop lastChunk chunk cs
      | .error e => .error e

/-- The `Pattern` loop of Go `Match`.  Fuel bounds the number of outer
iterations; each iteration strictly shortens the pattern, so the
wrapper's `pattern.length + 1` is always sufficient. -/
def goMatchF : Nat → List Char → List Char → Except Unit Bool
  | 0, _, _ => .error ()
  | fuel + 1, pattern, name =>
    if pattern.isEmpty then .ok name.isEmpty
    else
      let (star, chunk, rest) := scanChunk pattern
      if star && chunk.isEmpty then .ok (!name.contains '/')
      else
        match matchChunk chunk name with
        | .ok (some t) =>
          if t.isEmpty || !rest.isEmpty then goMatchF fuel rest t
          else if star then
            match starLoop rest.isEmpty chunk name with
            | .ok (some t2) => goMatchF fuel rest t2
            | .ok none => .ok false
            | .error e => .error e
          else .ok false
        | .ok none =>
          if star then
            match starLoop rest.isEmpty chunk name with
            | .ok (some t2) => goMatchF fuel rest t2
            | .ok none => .ok false
            | .error e => .error e
          else .ok false
        | .error e => .error e

/-- Model of Go `path/filepath.Match(pattern, name)`. -/
def goMatch (pattern name : List Char) : Except Unit Bool :=
  goMatchF (pattern.length + 1) pattern name

/-! ### The glob filter (`globAnyMatch`) -/

/-- Model of Go `strings.Split(s, ",")` on character lists: split around
each comma; the empty input yields one empty part. -/
def goSplitComma : List Char → List (List Char)
  | [] => [[]]
  | c :: cs =>
    if c = ',' then [] :: goSplitComma cs
    else
      match goSplitComma cs with
      | [] => [[c]]
      | p :: ps => (c :: p) :: ps

/-- Model of Go `strings.Split(filter, ",")`. -/
def goSplit (s : String) : List String :=
  (goSplitComma s.data).map String.mk

/-- The loop of `globAnyMatch` over the comma-separated parts of the
filter: each (whitespace-trimmed) part is matched first against the full
file path and then against its base name; the first successful match
returns true, a bad pattern propagates as an error. -/
def globAnyMatchList : List String → String → Except Unit Bool
  | [], _ => .ok false
  | part :: rest, file =>
    match goMatch (goTrimSpace part).data file.data with
    | .error e => .error e
    | .ok true => .ok true
    | .ok false =>
      match goMatch (goTrimSpace part).data (goBase file).data with
      | .error e => .error e
      | .ok true => .ok true
      | .ok false => globAnyMatchList rest file

/-- Model of `globAnyMatch(filter, file)`: tests whether the file matches
a (potentially) csv of glob filters. -/
def globAnyMatch (filter file : String) : Except Unit Bool :=
  globAnyMatchList (goSplit filter) file

/-! ### Rules and the pattern-matcher dispatch -/

/-- Model of the serialized `Rule` record of the lint tool. -/
structure Rule where
  File : String := ""
  Message : String := ""
  Contains : String := ""
  NotContains : String := ""
  Regex : String := ""
  Include : String := ""
  Exclude : String := ""
deriving Repr, DecidableEq

/-- A `RuleFunc` returns `some msg` for a violation (a non-nil Go error)
and `none` for a pass. -/
abbrev RuleFunc := String → Option String

/-- Model of `Contains(value)`: fail if the contents contain the given
string. -/
def Contains (value : String) : RuleFunc := fun contents =>
  if goContains contents value then some ("contains: \"" ++ value ++ "\"")
  else none

/-- Model of `NotContains(value)`: fail if the contents do not contain
the given string. -/
def NotContains (value : String) : RuleFunc := fun contents =>
  if !goContains contents value then some ("not contains: \"" ++ value ++ "\"")
  else none

/-- Abstract regular-expression engine standing for Go's `regexp`
package (an external collaborator): `compile` returns `none` exactly when
the pattern is malformed, in which case `regexp.MustCompile` panics and
aborts the process. -/
structure RegexEngine where
  compile : String → Option (String → Bool)

/-- Model of `Regex(expr)`: `none` models the `regexp.MustCompile` panic
on a malformed pattern; otherwise a `RuleFunc` failing when the compiled
pattern matches anywhere in the contents. -/
def Regex (re : RegexEngine) (expr : String) : Option RuleFunc :=
  (re.compile expr).map (fun m contents =>
    if m contents then some ("regexp match: \"" ++ expr ++ "\"") else none)

/-- Outcome of applying one rule to file contents. -/
inductive ApplyResult where
  | ok
  | violation (msg : String)
  | panic (expr : String)
deriving Repr, DecidableEq

/-- Lift a `RuleFunc` result to an `ApplyResult`. -/
def ofRuleFunc (f : RuleFunc) (contents : String) : ApplyResult :=
  match f contents with
  | some e => .violation e
  | none => .ok

/-- Model of `Rule.Apply`: dispatch on the first populated check field in
the fixed order contains, not-contains, regex; with none populated the
result is the "no rule set" error. -/
def Rule.Apply (re : RegexEngine) (r : Rule) (contents : String) : ApplyResult :=
  if r.Contains.length > 0 then ofRuleFunc (Profanity.Contains r.Contains) contents
  else if r.NotContains.length > 0 then ofRuleFunc (Profanity.NotContains r.NotContains) contents
  else if r.Regex.length > 0 then
    match Profanity.Regex re r.Regex with
    | none => .panic r.Regex
    | some f => ofRuleFunc f contents
  else .violation "no rule set"

/-- Model of `Rule.ShouldInclude`: true when the `Include` filter is
unset, otherwise the glob filter decides. -/
def Rule.ShouldInclude (r : Rule) (file : String) : Except Unit Bool :=
  if r.Include.length = 0 then .ok true
  else globAnyMatch r.Include file

/-- Model of `Rule.ShouldExclude`: false when the `Exclude` filter is
unset, otherwise the glob filter decides. -/
def Rule.ShouldExclude (r : Rule) (file : String) : Except Unit Bool :=
  if r.Exclude.length = 0 then .ok false
  else globAnyMatch r.Exclude file

/-! ### The evaluator (the per-file rule loop of `main`) -/

/-- Outcome of evaluating the resolved rule sequence against one file. -/
inductive EvalOutcome where
  | pass
  | fail (r : Rule) (msg : String)
  | globErr
  | panic (expr : String)
deriving Repr, DecidableEq

/-- Model of the rule-evaluation loop of `main`: iterate the resolved
rules in order; skip a rule when its include filter does not match or
its exclude filter matches; stop at the first violation, reporting
exactly that rule and its error. -/
def evaluateRules (re : RegexEngine) (file contents : String) : List Rule → EvalOutcome
  | [] => .pass
  | r :: rest =>
    match r.ShouldInclude file with
    | .error _ => .globErr
    | .ok false => evaluateRules re file contents rest
    | .ok true =>
      match r.ShouldExclude file with
      | .error _ => .globErr
      | .ok true => evaluateRules re file contents rest
      | .ok false =>
        match r.Apply re contents with
        | .ok => evaluateRules re file contents rest
        | .violation m => .fail r m
        | .panic e => .panic e

/-! ### Rule discovery, inheritance and memoization

The two Go maps `packageRules` (directory → raw local rules) and
`realizedRules` (directory → resolved rules) are modelled as association
lists threaded through the functions; `insertIdx` has Go-map semantics
(replace the value when the key exists, append otherwise) and the fold
of `discoverInherit` visits the entries in list order, one concrete
instance of Go's unspecified map iteration order.

The filesystem interaction of `localRules` (`os.Stat` on
`filepath.Join(path, *rulesFile)` followed by `deserializeRules`, i.e.
`ioutil.ReadFile` plus yaml decoding and `File`-stamping) is abstracted
as a function from the directory path to `none` when no rule file is
present (the `os.Stat` error branch), `some (.error e)` when the read
or the yaml decoding fails, and `some (.ok rules)` for the parsed,
already-stamped rule records. -/

/-- Directory-keyed rule index (model of a Go `map[string][]Rule`). -/
abbrev Index := List (String × List Rule)

/-- The abstract filesystem: what loading the rule-definition file of a
given directory yields. -/
abbrev RuleFs := String → Option (Except String (List Rule))

/-- Association-list lookup (Go map read). -/
def lookupIdx : Index → String → Option (List Rule)
  | [], _ => none
  | (k, v) :: rest, key => if k = key then some v else lookupIdx rest key

/-- Association-list store (Go map write): replace when present, append
otherwise. -/
def insertIdx : Index → String → List Rule → Index
  | [], key, v => [(key, v)]
  | (k, w) :: rest, key, v =>
    if k = key then (key, v) :: rest else (k, w) :: insertIdx rest key v

/-- Model of `localRules`: when the directory has no rule-definition file
return an empty sequence and no error, leaving the package index
untouched; when it has one, a parse failure propagates, and otherwise
the parsed rules are registered under the directory's path. -/
def localRules (fs : RuleFs) (packageRules : Index) (path : String) :
    Except String (List Rule × Index) :=
  match fs path with
  | none => .ok ([], packageRules)
  | some (.error e) => .error e
  | some (.ok rules) => .ok (rules, insertIdx packageRules path rules)

/-- The inheritance loop of `discoverRules`: for every index key that is
a strict textual prefix of `path`, prepend that key's raw rule sequence
ahead of the rules accumulated so far. -/
def discoverInherit (path : String) (packageRules : Index) (rules : List Rule) : List Rule :=
  packageRules.foldl
    (fun acc kv =>
      if goHasPrefix path kv.1 && kv.1 != path then kv.2 ++ acc else acc)
    rules

/-- Model of `discoverRules`: load the directory's local rules, prepend
every strict-prefix ancestor's raw rules, and finally prepend the root
(`"."`) rules when present and `path` is not the root itself. -/
def discoverRules (fs : RuleFs) (packageRules : Index) (path : String) :
    Except String (List Rule × Index) :=
  match localRules fs packageRules path with
  | .error e => .error e
  | .ok (rules0, packageRules1) =>
    let rules1 := discoverInherit path packageRules1 rules0
    let rules2 :=
      match lookupIdx packageRules1 "." with
      | some rootRules => if path != "." then rootRules ++ rules1 else rules1
      | none => rules1
    .ok (rules2, packageRules1)

/-- Model of `getRules`: memoized resolution — on a hit in
`realizedRules` return the stored sequence unchanged; on a miss run
`discoverRules` and store its result under the directory's path. -/
def getRules (fs : RuleFs) (realizedRules packageRules : Index) (path : String) :
    Except String (List Rule × Index × Index) :=
  match lookupIdx realizedRules path with
  | some rules => .ok (rules, realizedRules, packageRules)
  | none =>
    match discoverRules fs packageRules path with
    | .error e => .error e
    | .ok (rules, packageRules1) =>
      .ok (rules, insertIdx realizedRules path rules, packageRules1)

/-- The number of Rule Resolver (`discoverRules`) invocations a
`getRules` call performs, read off the cache test at its head: none on a
hit, one on a miss. -/
def getRulesResolverCalls (realizedRules : Index) (path : String) : Nat :=
  match lookupIdx realizedRules path with
  | some _ => 0
  | none => 1

/-- Whether an `ApplyResult` is a violation. -/
def isViolation : ApplyResult → Bool
  | .violation _ => true
  | _ => false

deriving instance DecidableEq for Except

/-! ### Index lemmas -/

theorem lookupIdx_mem {K : String} {rs : List Rule} :
    ∀ {pkg : Index}, lookupIdx pkg K = some rs → (K, rs) ∈ pkg
  | [], h => by simp [lookupIdx] at h
  | (k, v) :: rest, h => by
    by_cases hk : k = K
    · subst hk
      have h2 : v = rs := by simpa [lookupIdx] using h
      subst h2
      exact List.mem_cons_self _ _
    · simp only [lookupIdx, if_neg hk] at h
      exact List.mem_cons_of_mem _ (lookupIdx_mem h)

theorem mem_insertIdx_of_ne {K key : String} {rs v : List Rule} :
    ∀ {pkg : Index}, (K, rs) ∈ pkg → K ≠ key → (K, rs) ∈ insertIdx pkg key v
  | [], h, _ => by simp at h
  | (k, w) :: rest, h, hne => by
    simp only [insertIdx]
    by_cases hk : k = key
    · rw [if_pos hk]
      rcases List.mem_cons.mp h with h1 | h1
      · rw [Prod.ext_iff] at h1
        exact absurd (h1.1.trans hk) hne
      · exact List.mem_cons_of_mem _ h1
    · rw [if_neg hk]
      rcases List.mem_cons.mp h with h1 | h1
      · exact h1 ▸ List.mem_cons_self _ _
      · exact List.mem_cons_of_mem _ (mem_insertIdx_of_ne h1 hne)

theorem lookupIdx_insertIdx_self (key : String) (v : List Rule) :
    ∀ (pkg : Index), lookupIdx (insertIdx pkg key v) key = some v
  | [] => by simp [insertIdx, lookupIdx]
  | (k, w) :: rest => by
    by_cases hk : k = key
    · simp [insertIdx, hk, lookupIdx]
    · simp only [insertIdx, if_neg hk, lookupIdx]
      exact lookupIdx_insertIdx_self key v rest

/-! ### Inheritance-fold lemmas -/

theorem discoverInherit_cons (path : String) (kv : String × List Rule)
    (rest : Index) (rules : List Rule) :
    discoverInherit path (kv :: rest) rules =
      discoverInherit path rest
        (if goHasPrefix path kv.1 && kv.1 != path then kv.2 ++ rules else rules) := rfl

/-- The inheritance fold only ever prepends: its input always survives
as a suffix. -/
theorem discoverInherit_prepend (path : String) :
    ∀ (pkg : Index) (rules : List Rule),
      ∃ pre, discoverInherit path pkg rules = pre ++ rules := by
  intro pkg
  induction pkg with
  | nil => exact fun rules => ⟨[], rfl⟩
  | cons kv rest ih =>
    intro rules
    rw [discoverInherit_cons]
    by_cases hc : (goHasPrefix path kv.1 && kv.1 != path) = true
    · rw [if_pos hc]
      obtain ⟨pre, hp⟩ := ih (kv.2 ++ rules)
      exact ⟨pre ++ kv.2, by rw [hp, List.append_assoc]⟩
    · rw [if_neg hc]
      exact ih rules

/-- Every index entry whose key is a strict textual prefix of `path`
contributes its whole rule sequence, contiguously, somewhere ahead of
the fold's input. -/
theorem discoverInherit_mem (path : String) {K : String} {rs : List Rule} :
    ∀ {pkg : Index} (rules : List Rule), (K, rs) ∈ pkg →
      goHasPrefix path K = true → K ≠ path →
      ∃ p q, discoverInherit path pkg rules = p ++ rs ++ q ++ rules := by
  intro pkg
  induction pkg with
  | nil => intro rules h; simp at h
  | cons kv rest ih =>
    intro rules hmem hpre hne
    rw [discoverInherit_cons]
    rcases List.mem_cons.mp hmem with h1 | h1
    · rw [← h1]
      have hc : (goHasPrefix path (K, rs).1 && (K, rs).1 != path) = true := by
        simp only [hpre, Bool.true_and, bne_iff_ne, ne_eq]
        exact hne
      rw [if_pos hc]
      obtain ⟨pre, hp⟩ := discoverInherit_prepend path rest (rs ++ rules)
      exact ⟨pre, [], by rw [hp]; simp [List.append_assoc]⟩
    · by_cases hc : (goHasPrefix path kv.1 && kv.1 != path) = true
      · rw [if_pos hc]
        obtain ⟨p, q, hp⟩ := ih (kv.2 ++ rules) h1 hpre hne
        refine ⟨p, q ++ kv.2, ?_⟩
        rw [hp]
        simp [List.append_assoc]
      · rw [if_neg hc]
        exact ih rules h1 hpre hne

/-- A successful `localRules` call leaves every entry for a different
key in place. -/
theorem localRules_preserves {fs : RuleFs} {pkg pkg₁ : Index} {d K : String}
    {loc rs : List Rule}
    (hloc : localRules fs pkg d = .ok (loc, pkg₁))
    (hmem : (K, rs) ∈ pkg) (hne : K ≠ d) : (K, rs) ∈ pkg₁ := by
  unfold localRules at hloc
  cases hfs : fs d with
  | none =>
    rw [hfs] at hloc
    cases hloc
    exact hmem
  | some res =>
    rw [hfs] at hloc
    cases res with
    | error e => cases hloc
    | ok rules =>
      cases hloc
      exact mem_insertIdx_of_ne hmem hne

/-- `discoverRules` reduced through a known `localRules` result. -/
theorem discoverRules_eq {fs : RuleFs} {pkg pkg₁ : Index} {d : String}
    {loc : List Rule}
    (hloc : localRules fs pkg d = .ok (loc, pkg₁)) :
    discoverRules fs pkg d =
      .ok ((match lookupIdx pkg₁ "." with
            | some rootRules =>
              if d != "." then rootRules ++ discoverInherit d pkg₁ loc
              else discoverInherit d pkg₁ loc
            | none => discoverInherit d pkg₁ loc), pkg₁) := by
  unfold discoverRules
  rw [hloc]

/-- Claim C1: every directory key K of the PackageRuleIndex that is a
strict string prefix of the resolved directory contributes its raw rule
sequence contiguously ahead of the directory's own local rules, which
always survive (as a suffix) in the resolved sequence; and the prefix
test being textual, the key "foo" contributes to a sibling directory
literally named "foobar". -/
theorem discoverRules_prefix_inheritance
    (fs : RuleFs) (pkg : Index) (d : String) (res : List Rule)
    (pkg' pkg₁ : Index) (loc : List Rule)
    (hloc : localRules fs pkg d = .ok (loc, pkg₁))
    (hdisc : discoverRules fs pkg d = .ok (res, pkg')) :
    (∃ pre, res = pre ++ loc ∧
      ∀ K rs, lookupIdx pkg K = some rs → goHasPrefix d K = true → K ≠ d →
        ∃ p q, pre = p ++ rs ++ q) ∧
    (∀ fooRules : List Rule,
      discoverRules (fun _ => none) [("foo", fooRules)] "foobar" =
        .ok (fooRules, [("foo", fooRules)])) := by
  constructor
  · rw [discoverRules_eq hloc] at hdisc
    have hinj := Except.ok.inj hdisc
    rw [Prod.mk.injEq] at hinj
    obtain ⟨hres, hpkg⟩ := hinj
    obtain ⟨pre0, hpre0⟩ := discoverInherit_prepend d pkg₁ loc
    have main : ∀ K rs, lookupIdx pkg K = some rs → goHasPrefix d K = true → K ≠ d →
        ∃ p q, pre0 = p ++ rs ++ q := by
      intro K rs hK hKpre hKne
      obtain ⟨p, q, hp⟩ :=
        discoverInherit_mem d loc (localRules_preserves hloc (lookupIdx_mem hK) hKne) hKpre hKne
      exact ⟨p, q, (List.append_cancel_right (hp.symm.trans hpre0)).symm⟩
    cases hroot : lookupIdx pkg₁ "." with
    | none =>
      rw [hroot] at hres
      exact ⟨pre0, by rw [← hres, hpre0], main⟩
    | some rootRules =>
      rw [hroot] at hres
      cases hd : (d != ".") with
      | false =>
        rw [hd] at hres
        simp only [Bool.false_eq_true, if_false] at hres
        exact ⟨pre0, by rw [← hres, hpre0], main⟩
      | true =>
        rw [hd] at hres
        simp only [if_true] at hres
        refine ⟨rootRules ++ pre0, by rw [← hres, hpre0, List.append_assoc], ?_⟩
        intro K rs hK hKpre hKne
        obtain ⟨p, q, hp⟩ := main K rs hK hKpre hKne
        exact ⟨rootRules ++ p, q, by rw [hp]; simp [List.append_assoc]⟩
  · intro fooRules
    have hA : goHasPrefix "foobar" "foo" = true := by decide
    have hB : (("foo" : String) != "foobar") = true := by decide
    have h2 : ¬ (("foo" : String) = ".") := by decide
    simp [discoverRules, localRules, discoverInherit, lookupIdx, hA, hB, h2]

/-- Claim C2: for a non-root directory with no local rules, when the
root's rule-definition file has been discovered, the resolved sequence
starts with the root's rules. -/
theorem discoverRules_root_rules
    (fs : RuleFs) (pkg pkg' : Index) (d : String)
    (rootRules res : List Rule)
    (hnofile : fs d = none)
    (hroot : lookupIdx pkg "." = some rootRules)
    (hne : d ≠ ".")
    (hdisc : discoverRules fs pkg d = .ok (res, pkg')) :
    ∃ rest, res = rootRules ++ rest := by
  have hloc : localRules fs pkg d = .ok ([], pkg) := by
    unfold localRules
    rw [hnofile]
  rw [discoverRules_eq hloc, hroot] at hdisc
  have hdne : (d != ".") = true := bne_iff_ne.mpr hne
  rw [hdne] at hdisc
  simp only [if_true] at hdisc
  have hres := (Prod.ext_iff.mp (Except.ok.inj hdisc)).1
  exact ⟨discoverInherit d pkg [], hres.symm⟩

/-- Claim C3: resolution is memoized and idempotent — after a successful
`getRules` call, a second call for the same directory is a cache hit
returning the stored sequence and states unchanged, and the Rule
Resolver runs at most once across the two calls. -/
theorem getRules_memoized
    (fs : RuleFs) (r p : Index) (d : String)
    (rules : List Rule) (r' p' : Index)
    (h : getRules fs r p d = .ok (rules, r', p')) :
    getRules fs r' p' d = .ok (rules, r', p') ∧
    lookupIdx r' d = some rules ∧
    getRulesResolverCalls r' d = 0 ∧
    getRulesResolverCalls r d + getRulesResolverCalls r' d ≤ 1 := by
  unfold getRules at h
  cases hl : lookupIdx r d with
  | some rs =>
    rw [hl] at h
    have hinj : rs = rules ∧ r = r' ∧ p = p' := by
      have hh := Except.ok.inj h
      rw [Prod.mk.injEq, Prod.mk.injEq] at hh
      exact hh
    obtain ⟨e1, e2, e3⟩ := hinj
    subst e1
    subst e2
    subst e3
    refine ⟨by simp [getRules, hl], hl, ?_, ?_⟩
    · simp [getRulesResolverCalls, hl]
    · simp [getRulesResolverCalls, hl]
  | none =>
    rw [hl] at h
    cases hd : discoverRules fs p d with
    | error e =>
      rw [hd] at h
      simp at h
    | ok pr =>
      obtain ⟨rs2, p₁⟩ := pr
      rw [hd] at h
      have hinj : rs2 = rules ∧ insertIdx r d rs2 = r' ∧ p₁ = p' := by
        have hh := Except.ok.inj h
        rw [Prod.mk.injEq, Prod.mk.injEq] at hh
        exact hh
      obtain ⟨e1, e2, e3⟩ := hinj
      subst e1
      subst e2
      subst e3
      have hit := lookupIdx_insertIdx_self d rs2 r
      refine ⟨by simp [getRules, hit], hit, ?_, ?_⟩
      · simp [getRulesResolverCalls, hit]
      · simp [getRulesResolverCalls, hit, hl]

/-- A nonempty string has positive length. -/
theorem length_pos_of_ne_empty {s : String} (h : s ≠ "") : 0 < s.length := by
  cases s with
  | mk data =>
    cases data with
    | nil => exact absurd rfl h
    | cons c cs => simp [String.length]

/-- Claim C4: `Rule.Apply` dispatches on the populated check field in
fixed priority contains, not-contains, regex; each branch violates
exactly under its documented condition, and a rule with both contains
and regex populated behaves as the contains-only rule. -/
theorem Rule_Apply_dispatch (re : RegexEngine) (r : Rule) (contents : String) :
    (r.Contains ≠ "" →
      isViolation (r.Apply re contents) = goContains contents r.Contains) ∧
    (r.Contains = "" → r.NotContains ≠ "" →
      isViolation (r.Apply re contents) = !goContains contents r.NotContains) ∧
    (∀ m, r.Contains = "" → r.NotContains = "" → r.Regex ≠ "" →
      re.compile r.Regex = some m →
      isViolation (r.Apply re contents) = m contents) ∧
    (r.Contains ≠ "" →
      r.Apply re contents =
        Rule.Apply re { r with NotContains := "", Regex := "" } contents) := by
  refine ⟨?_, ?_, ?_, ?_⟩
  · intro h
    have hl := length_pos_of_ne_empty h
    cases hg : goContains contents r.Contains with
    | true => simp [Rule.Apply, hl, ofRuleFunc, Profanity.Contains, hg, isViolation]
    | false => simp [Rule.Apply, hl, ofRuleFunc, Profanity.Contains, hg, isViolation]
  · intro h1 h2
    have hl := length_pos_of_ne_empty h2
    cases hg : goContains contents r.NotContains with
    | true => simp [Rule.Apply, h1, hl, ofRuleFunc, Profanity.NotContains, hg, isViolation]
    | false => simp [Rule.Apply, h1, hl, ofRuleFunc, Profanity.NotContains, hg, isViolation]
  · intro m h1 h2 h3 hc
    have hl := length_pos_of_ne_empty h3
    cases hm : m contents with
    | true =>
      simp [Rule.Apply, h1, h2, hl, Profanity.Regex, hc, ofRuleFunc, hm, isViolation]
    | false =>
      simp [Rule.Apply, h1, h2, hl, Profanity.Regex, hc, ofRuleFunc, hm, isViolation]
  · intro h
    have hl := length_pos_of_ne_empty h
    simp [Rule.Apply, hl]

/-- Claim C7: a rule with none of the three check fields populated
yields the "no rule set" error when applied, reported as a violation
when the rule is reached during evaluation. -/
theorem Rule_Apply_no_rule_set (re : RegexEngine) (r : Rule) (contents file : String)
    (h1 : r.Contains = "") (h2 : r.NotContains = "") (h3 : r.Regex = "") :
    r.Apply re contents = .violation "no rule set" ∧
    (∀ rest, r.Include = "" → r.Exclude = "" →
      evaluateRules re file contents (r :: rest) = .fail r "no rule set") := by
  have happ : r.Apply re contents = .violation "no rule set" := by
    simp [Rule.Apply, h1, h2, h3]
  refine ⟨happ, ?_⟩
  intro rest hi he
  simp [evaluateRules, Rule.ShouldInclude, Rule.ShouldExclude, hi, he, happ]

/-- Claim C10: an empty `Include` filter admits every file and an empty
`Exclude` filter excludes none, without consulting the glob matcher
(which, on the empty filter spec, would answer `.ok false`). -/
theorem Rule_filters_unset (r : Rule) (file : String) :
    (r.Include = "" → r.ShouldInclude file = .ok true) ∧
    (r.Exclude = "" → r.ShouldExclude file = .ok false) ∧
    globAnyMatch "" "a.go" = .ok false := by
  refine ⟨?_, ?_, by decide⟩
  · intro h
    simp [Rule.ShouldInclude, h]
  · intro h
    simp [Rule.ShouldExclude, h]

/-- One rule of the evaluator's sequence produces no violation for this
file: it is skipped by its include filter, skipped by its exclude
filter, or applies cleanly. -/
def rulePasses (re : RegexEngine) (file contents : String) (r : Rule) : Prop :=
  r.ShouldInclude file = .ok false ∨
  (r.ShouldInclude file = .ok true ∧ r.ShouldExclude file = .ok true) ∨
  (r.ShouldInclude file = .ok true ∧ r.ShouldExclude file = .ok false ∧
    r.Apply re contents = .ok)

instance (re : RegexEngine) (file contents : String) (r : Rule) :
    Decidable (rulePasses re file contents r) := by
  unfold rulePasses
  infer_instance

/-- A rule that passes leaves the evaluation of the remaining sequence
unchanged. -/
theorem evaluateRules_skip_or_pass (re : RegexEngine) (file contents : String)
    (r : Rule) (rest : List Rule) (h : rulePasses re file contents r) :
    evaluateRules re file contents (r :: rest) = evaluateRules re file contents rest := by
  rcases h with h1 | ⟨h1, h2⟩ | ⟨h1, h2, h3⟩
  · simp [evaluateRules, h1]
  · simp [evaluateRules, h1, h2]
  · simp [evaluateRules, h1, h2, h3]

/-- Claim C5: the evaluator walks the sequence in order, skipping rules
whose include filter misses or whose exclude filter hits, and stops at
the first violating rule, reporting exactly that violation — whatever
rules follow it are never evaluated (the result does not depend on
them). -/
theorem evaluateRules_fail_fast (re : RegexEngine) (file contents : String)
    (rules1 : List Rule) (r : Rule) (m : String)
    (h1 : ∀ r2 ∈ rules1, rulePasses re file contents r2)
    (h2 : r.ShouldInclude file = .ok true)
    (h3 : r.ShouldExclude file = .ok false)
    (h4 : r.Apply re contents = .violation m) :
    ∀ rest, evaluateRules re file contents (rules1 ++ r :: rest) = .fail r m := by
  intro rest
  induction rules1 with
  | nil => simp [evaluateRules, h2, h3, h4]
  | cons r0 tl ih =>
    rw [List.cons_append,
      evaluateRules_skip_or_pass re file contents r0 _ (h1 r0 (List.mem_cons_self _ _))]
    exact ih (fun r2 hr2 => h1 r2 (List.mem_cons_of_mem _ hr2))

/-- The glob filter loop answers true exactly when some comma-separated
part matches the full path or the base name, provided no part reached
before a match is malformed. -/
theorem globAnyMatchList_iff (file : String) :
    ∀ (parts : List String),
      (∀ part ∈ parts,
        goMatch (goTrimSpace part).data file.data ≠ .error () ∧
        goMatch (goTrimSpace part).data (goBase file).data ≠ .error ()) →
      (globAnyMatchList parts file = .ok true ↔
        ∃ part ∈ parts,
          goMatch (goTrimSpace part).data file.data = .ok true ∨
          goMatch (goTrimSpace part).data (goBase file).data = .ok true)
  | [], _ => by simp [globAnyMatchList]
  | part :: rest, h => by
    obtain ⟨h1, h2⟩ := h part (List.mem_cons_self _ _)
    have ih := globAnyMatchList_iff file rest (fun p hp => h p (List.mem_cons_of_mem _ hp))
    cases e1 : goMatch (goTrimSpace part).data file.data with
    | error u => cases u; exact absurd e1 h1
    | ok b1 =>
      cases b1 with
      | true => simp [globAnyMatchList, e1]
      | false =>
        cases e2 : goMatch (goTrimSpace part).data (goBase file).data with
        | error u => cases u; exact absurd e2 h2
        | ok b2 =>
          cases b2 with
          | true => simp [globAnyMatchList, e1, e2]
          | false => simp [globAnyMatchList, e1, e2, ih]

/-- Claim C6: `globAnyMatch` is true iff at least one comma-separated
glob pattern matches the file's full path or its base name; in
particular `"c.go"` matches `"/a/b/c.go"` through the base name alone,
the full-path match being false. -/
theorem globAnyMatch_path_or_base (filter file : String)
    (h : ∀ part ∈ goSplit filter,
      goMatch (goTrimSpace part).data file.data ≠ .error () ∧
      goMatch (goTrimSpace part).data (goBase file).data ≠ .error ()) :
    (globAnyMatch filter file = .ok true ↔
      ∃ part ∈ goSplit filter,
        goMatch (goTrimSpace part).data file.data = .ok true ∨
        goMatch (goTrimSpace part).data (goBase file).data = .ok true) ∧
    globAnyMatch "c.go" "/a/b/c.go" = .ok true ∧
    goMatch "c.go".data "/a/b/c.go".data = .ok false ∧
    goMatch "c.go".data (goBase "/a/b/c.go").data = .ok true :=
  ⟨globAnyMatchList_iff file (goSplit filter) h, by decide, by decide, by decide⟩

/-- Claim C9: a malformed glob pattern errors out of the filter at its
first use (never a silent non-match), a malformed regex panics out of
`Rule.Apply` and the evaluator, and a glob error inside a rule's include
filter aborts evaluation. -/
theorem malformed_patterns_fatal
    (parts1 : List String) (part : String) (rest : List String) (file : String)
    (re : RegexEngine) (r : Rule) (contents file2 : String) (tl : List Rule)
    (hskip : ∀ p ∈ parts1,
      goMatch (goTrimSpace p).data file.data = .ok false ∧
      goMatch (goTrimSpace p).data (goBase file).data = .ok false)
    (hbad : goMatch (goTrimSpace part).data file.data = .error ()) :
    globAnyMatchList (parts1 ++ part :: rest) file = .error () ∧
    globAnyMatch "[" "x.go" = .error () ∧
    (r.Contains = "" → r.NotContains = "" → r.Regex ≠ "" → re.compile r.Regex = none →
      r.Apply re contents = .panic r.Regex ∧
      (r.Include = "" → r.Exclude = "" →
        evaluateRules re file2 contents (r :: tl) = .panic r.Regex)) ∧
    (r.Include ≠ "" → globAnyMatch r.Include file2 = .error () →
      evaluateRules re file2 contents (r :: tl) = .globErr) := by
  refine ⟨?_, by decide, ?_, ?_⟩
  · induction parts1 with
    | nil => simp [globAnyMatchList, hbad]
    | cons p tl1 ih =>
      obtain ⟨hp1, hp2⟩ := hskip p (List.mem_cons_self _ _)
      rw [List.cons_append]
      simp only [globAnyMatchList, hp1, hp2]
      exact ih (fun p2 hp => hskip p2 (List.mem_cons_of_mem _ hp))
  · intro h1 h2 h3 h4
    have hl := length_pos_of_ne_empty h3
    have happ : r.Apply re contents = .panic r.Regex := by
      simp [Rule.Apply, h1, h2, hl, Profanity.Regex, h4]
    refine ⟨happ, ?_⟩
    intro hi he
    simp [evaluateRules, Rule.ShouldInclude, Rule.ShouldExclude, hi, he, happ]
  · intro hne hge
    have hl : ¬ (r.Include.length = 0) := by
      have := length_pos_of_ne_empty hne
      omega
    simp [evaluateRules, Rule.ShouldInclude, hl, hge]

/-- Claim C8: when a directory has no rule-definition file, the loader
returns an empty sequence and no error (leaving the package index as it
was), resolution still succeeds and its result is cached under the
directory, and with an empty package index the resolved sequence is
empty. -/
theorem localRules_absent_not_an_error
    (fs : RuleFs) (pkg realized : Index) (d : String)
    (hnofile : fs d = none) :
    localRules fs pkg d = .ok ([], pkg) ∧
    (∃ rules r' p', getRules fs realized pkg d = .ok (rules, r', p') ∧
      lookupIdx r' d = some rules) ∧
    discoverRules fs ([] : Index) d = .ok ([], []) := by
  have hloc : localRules fs pkg d = .ok ([], pkg) := by
    unfold localRules
    rw [hnofile]
  refine ⟨hloc, ?_, ?_⟩
  · cases hl : lookupIdx realized d with
    | some rs =>
      refine ⟨rs, realized, pkg, by simp [getRules, hl], hl⟩
    | none =>
      obtain ⟨rules2, hd2⟩ : ∃ rules2, discoverRules fs pkg d = .ok (rules2, pkg) :=
        ⟨_, discoverRules_eq hloc⟩
      exact ⟨rules2, insertIdx realized d rules2, pkg,
        by simp [getRules, hl, hd2], lookupIdx_insertIdx_self d rules2 realized⟩
  · have hloc0 : localRules fs ([] : Index) d = .ok ([], []) := by
      unfold localRules
      rw [hnofile]
    rw [discoverRules_eq hloc0]
    simp [lookupIdx, discoverInherit]

/-! ### Concrete sample objects used by the witnesses -/

def ruleA : Rule := { Contains := "alpha" }

def ruleLoc : Rule := { Contains := "localword" }

def ruleRoot : Rule := { Contains := "rootword" }

/-- A filesystem with one rule-definition file, in directory `ab`. -/
def fsAB : RuleFs := fun d => if d = "ab" then some (.ok [ruleLoc]) else none

/-- Witness for C1: directory `ab` with local rules, inheriting from the
index key `a` (a strict textual prefix of `ab`). -/
theorem discoverRules_prefix_inheritance_witness :
    ∃ pre, [ruleA, ruleLoc] = pre ++ [ruleLoc] ∧
      ∀ K rs, lookupIdx [("a", [ruleA])] K = some rs →
        goHasPrefix "ab" K = true → K ≠ "ab" →
        ∃ p q, pre = p ++ rs ++ q :=
  (discoverRules_prefix_inheritance fsAB [("a", [ruleA])] "ab" [ruleA, ruleLoc]
    [("a", [ruleA]), ("ab", [ruleLoc])] [("a", [ruleA]), ("ab", [ruleLoc])] [ruleLoc]
    (by rfl) (by rfl)).1

/-- Witness for C2: a non-root directory with no local rules receives the
root's rules at the front. -/
theorem discoverRules_root_rules_witness :
    ∃ rest, [ruleRoot] = [ruleRoot] ++ rest :=
  discoverRules_root_rules (fun _ => none) [(".", [ruleRoot])] [(".", [ruleRoot])]
    "sub" [ruleRoot] [ruleRoot] rfl rfl (by decide) (by rfl)

/-- Witness for C3: resolving directory `d` against an empty cache, then
observing that the second call is a pure cache hit. -/
theorem getRules_memoized_witness :
    getRules (fun _ => none) [("d", ([] : List Rule))] [] "d" = .ok ([], [("d", [])], []) ∧
    lookupIdx [("d", ([] : List Rule))] "d" = some [] ∧
    getRulesResolverCalls [("d", ([] : List Rule))] "d" = 0 ∧
    getRulesResolverCalls [] "d" + getRulesResolverCalls [("d", ([] : List Rule))] "d" ≤ 1 :=
  getRules_memoized (fun _ => none) [] [] "d" [] [("d", [])] [] (by rfl)

/-- Witness for C8: a directory with no rule-definition file resolves
without error and the result is cached. -/
theorem localRules_absent_not_an_error_witness :
    localRules (fun _ => none) [("x", [ruleA])] "dir" = .ok ([], [("x", [ruleA])]) ∧
    (∃ rules r' p',
      getRules (fun _ => none) [] [("x", [ruleA])] "dir" = .ok (rules, r', p') ∧
      lookupIdx r' "dir" = some rules) ∧
    discoverRules (fun _ => none) ([] : Index) "dir" = .ok ([], []) :=
  localRules_absent_not_an_error (fun _ => none) [("x", [ruleA])] [] "dir" rfl

/-- A regex engine on which every pattern fails to compile. -/
def reNone : RegexEngine := ⟨fun _ => none⟩

/-- A regex engine on which every pattern compiles and matches. -/
def reTrue : RegexEngine := ⟨fun _ => some (fun _ => true)⟩

/-- Witness for C4: each dispatch branch evaluated at a concrete rule,
and the contains/regex ambiguity resolved in favour of contains. -/
theorem Rule_Apply_dispatch_witness :
    isViolation (Rule.Apply reNone { Contains := "bad" } "a bad day") =
      goContains "a bad day" "bad" ∧
    isViolation (Rule.Apply reNone { NotContains := "must" } "text") =
      !goContains "text" "must" ∧
    isViolation (Rule.Apply reTrue { Regex := "p" } "text") = true ∧
    Rule.Apply reNone { Contains := "bad", Regex := "p" } "a bad day" =
      Rule.Apply reNone { Contains := "bad" } "a bad day" :=
  ⟨(Rule_Apply_dispatch reNone { Contains := "bad" } "a bad day").1 (by decide),
   (Rule_Apply_dispatch reNone { NotContains := "must" } "text").2.1 rfl (by decide),
   (Rule_Apply_dispatch reTrue { Regex := "p" } "text").2.2.1 (fun _ => true) rfl rfl
     (by decide) rfl,
   (Rule_Apply_dispatch reNone { Contains := "bad", Regex := "p" } "a bad day").2.2.2
     (by decide)⟩

/-- Witness for C7: the unset rule reports "no rule set" as a violation
during evaluation. -/
theorem Rule_Apply_no_rule_set_witness :
    Rule.Apply reNone { Message := "w" } "abc" = .violation "no rule set" ∧
    (∀ rest, Rule.Include { Message := "w" } = "" → Rule.Exclude { Message := "w" } = "" →
      evaluateRules reNone "f.go" "abc" ({ Message := "w" } :: rest) =
        .fail { Message := "w" } "no rule set") :=
  Rule_Apply_no_rule_set reNone { Message := "w" } "abc" "f.go" rfl rfl rfl

/-- Witness for C10: unset filters admit the file and exclude nothing. -/
theorem Rule_filters_unset_witness :
    Rule.ShouldInclude { Message := "w" } "f.go" = .ok true ∧
    Rule.ShouldExclude { Message := "w" } "f.go" = .ok false ∧
    globAnyMatch "" "a.go" = .ok false :=
  ⟨(Rule_filters_unset { Message := "w" } "f.go").1 rfl,
   (Rule_filters_unset { Message := "w" } "f.go").2.1 rfl,
   (Rule_filters_unset { Message := "w" } "f.go").2.2⟩

def ruleZ : Rule := { Contains := "zzz" }

def ruleT : Rule := { Contains := "TODO", Message := "no todos" }

def ruleH : Rule := { Contains := "hello" }

/-- Witness for C5: with R1 passing and R2 violating, evaluation reports
exactly R2's violation, whatever follows R2. -/
theorem evaluateRules_fail_fast_witness :
    evaluateRules reNone "f.go" "hello TODO" ([ruleZ] ++ ruleT :: [ruleH]) =
      .fail ruleT "contains: \"TODO\"" :=
  evaluateRules_fail_fast reNone "f.go" "hello TODO" [ruleZ] ruleT "contains: \"TODO\""
    (by decide) (by decide) (by decide) (by decide) [ruleH]

/-- Witness for C6: the filter `"c.go"` against `"/a/b/c.go"` — true via
the base name, false on the full path. -/
theorem globAnyMatch_path_or_base_witness :
    (globAnyMatch "c.go" "/a/b/c.go" = .ok true ↔
      ∃ part ∈ goSplit "c.go",
        goMatch (goTrimSpace part).data "/a/b/c.go".data = .ok true ∨
        goMatch (goTrimSpace part).data (goBase "/a/b/c.go").data = .ok true) ∧
    globAnyMatch "c.go" "/a/b/c.go" = .ok true ∧
    goMatch "c.go".data "/a/b/c.go".data = .ok false ∧
    goMatch "c.go".data (goBase "/a/b/c.go").data = .ok true :=
  globAnyMatch_path_or_base "c.go" "/a/b/c.go" (by decide)

/-- Witness for C9: the malformed pattern `"["` aborts the glob filter,
a non-compiling regex panics out of `Rule.Apply`, and an include-filter
glob error aborts evaluation. -/
theorem malformed_patterns_fatal_witness :
    globAnyMatchList (["a.md"] ++ "[" :: []) "x.go" = .error () ∧
    globAnyMatch "[" "x.go" = .error () ∧
    Rule.Apply reNone { Regex := "(" } "c" = .panic "(" ∧
    evaluateRules reNone "f.go" "c" ({ Include := "[" } :: []) = .globErr :=
  ⟨(malformed_patterns_fatal ["a.md"] "[" [] "x.go" reNone { Regex := "(" } "c" "f.go" []
      (by decide) (by decide)).1,
   (malformed_patterns_fatal ["a.md"] "[" [] "x.go" reNone { Regex := "(" } "c" "f.go" []
      (by decide) (by decide)).2.1,
   ((malformed_patterns_fatal ["a.md"] "[" [] "x.go" reNone { Regex := "(" } "c" "f.go" []
      (by decide) (by decide)).2.2.1 rfl rfl (by decide) rfl).1,
   (malformed_patterns_fatal ["a.md"] "[" [] "x.go" reNone { Include := "[" } "c" "f.go" []
      (by decide) (by decide)).2.2.2 (by decide) (by decide)⟩

end Profanity
